import Mathlib

/-!
Shallow embedding of the repository's MPC / Shamir secret-sharing module
(`ShamirSecretShare` and `MPCFramework`, file `server/lib/mpc.ts`).

Conventions of the embedding:
* JavaScript `bigint` is modelled as `Int`. JS `%` on bigints is truncated
  remainder (sign of the dividend), modelled by `Int.tmod`; JS `/` on bigints
  truncates toward zero, modelled by `Int.tdiv`.
* The random 32-byte draws of `crypto.randomBytes(32)` are modelled by an
  explicit parameter `rand : Nat → Nat` giving the value drawn for the i-th
  polynomial coefficient; the source reduces each draw mod `PRIME`.
* SHA-256 (Node's `crypto` library, not repository code) is modelled by an
  abstract digest function `sha : String → Nat` giving the digest interpreted
  as a big-endian integer, exactly what `BigInt('0x' + hash)` produces.
* The hex serialization of a share (`toString(16).padStart(64,'0')` on write,
  `BigInt('0x' + s)` on read) is the identity on nonnegative bigints and is
  elided: share records carry the integers themselves.
* `decode` is modelled at the big-integer value it reconstructs; the final
  JS `Number(...)` coercion to a float is outside the integer semantics.
-/

namespace MPC

/-- Field modulus, from `ShamirSecretShare.PRIME` (the same literal is
re-declared locally inside `MPCFramework.encode` and
`MPCFramework.secureEquality`). -/
def PRIME : Int := 57896044618658097711785492504343953926634992332820282019728792003956564819949

/-- Iterated multiply-and-reduce loop inside `bigintPow` (the `else` branch:
`result = (result * base) % PRIME` repeated `exp` times starting at 1). -/
def powLoop (base : Int) : Nat → Int
  | 0 => 1
  | m + 1 => (powLoop base m * base).tmod PRIME

/-- The source's `ShamirSecretShare.bigintPow`: returns 1 for exponent 0, the
(unreduced) base for exponent 1, and otherwise the reduced product loop. -/
def bigintPow (base : Int) (exp : Nat) : Int :=
  if exp = 0 then 1
  else if exp = 1 then base
  else powLoop base exp

/-- The source's `ShamirSecretShare.splitSecret`.  The polynomial coefficients
are `secret` followed by `k - 1` random draws reduced mod `PRIME`
(`BigInt('0x' + randomHex) % PRIME`); the polynomial is evaluated at
`x = 1, …, n` with every product and running sum reduced mod `PRIME`.
Throwing `Error("Threshold k must be <= n")` is modelled by `Except.error`. -/
def splitSecret (secret : Int) (n k : Nat) (rand : Nat → Nat) : Except String (List Int) :=
  if k > n then .error "Threshold k must be <= n"
  else
    let coefficients : List Int :=
      secret :: (List.range (k - 1)).map (fun i => ((rand (i + 1) : Int)).tmod PRIME)
    let shares : List Int :=
      (List.range n).map (fun j =>
        coefficients.enum.foldl
          (fun y ic => (y + (ic.2 * bigintPow ((j + 1 : Nat) : Int) ic.1).tmod PRIME).tmod PRIME) 0)
    .ok shares

/-- Loop of `ShamirSecretShare.modInverse` (extended Euclidean algorithm):
`while (r !== 0) { q = old_r / r; (old_r, r) = (r, old_r - q*r);
(old_s, s) = (s, old_s - q*s) }` returning `old_s`.  The `fuel` argument makes
the recursion structural; 1000 exceeds the Fibonacci bound on the number of
Euclid iterations for 256-bit inputs, so the fuel is never exhausted on any
input the module produces. -/
def modInverseLoop : Nat → Int → Int → Int → Int → Int
  | 0, _, _, old_s, _ => old_s
  | fuel + 1, old_r, r, old_s, s =>
    if r = 0 then old_s
    else
      let quotient := old_r.tdiv r
      modInverseLoop fuel r (old_r - quotient * r) s (old_s - quotient * s)

/-- The source's `ShamirSecretShare.modInverse`: extended Euclid on
`(a, PRIME)` starting from `(old_s, s) = (1, 0)`, with a final correction
adding `PRIME` when the result is negative. -/
def modInverse (a : Int) : Int :=
  let old_s := modInverseLoop 1000 a PRIME 1 0
  if old_s < 0 then old_s + PRIME else old_s

/-- The `x_coords` array of `reconstructSecret`:
`shares.map((_, i) => BigInt(i + 1))`, which depends only on the number of
shares. -/
def xCoords (m : Nat) : List Int := (List.range m).map (fun i => ((i : Int) + 1))

/-- Inner `j`-loop of `reconstructSecret` for share index `i` of `m` shares:
accumulates the pair (numerator, denominator) starting from `(1, 1)`,
multiplying in `((0 - x_j) % PRIME + PRIME) % PRIME` and
`((x_i - x_j) % PRIME + PRIME) % PRIME` for every `j ≠ i`. -/
def lagrangeFactors (m i : Nat) : Int × Int :=
  (List.range m).foldl
    (fun nd j =>
      if i ≠ j then
        ((nd.1 * (((0 - (xCoords m).getD j 0).tmod PRIME + PRIME).tmod PRIME)).tmod PRIME,
         (nd.2 * ((((xCoords m).getD i 0 - (xCoords m).getD j 0).tmod PRIME + PRIME).tmod PRIME)).tmod PRIME)
      else nd)
    (1, 1)

/-- Body of the outer `i`-loop of `reconstructSecret`:
`lagrange = (numerator * modInverse(denominator)) % PRIME` and
`term = (shares[i] * lagrange) % PRIME`. -/
def shareTerm (shares : List Int) (i : Nat) : Int :=
  let nd := lagrangeFactors shares.length i
  let lagrange := (nd.1 * modInverse nd.2).tmod PRIME
  (shares.getD i 0 * lagrange).tmod PRIME

/-- The source's `ShamirSecretShare.reconstructSecret`: Lagrange interpolation
at `x = 0` over the points `(1, shares[0]), (2, shares[1]), …`, with the
running secret reduced mod `PRIME` at every step and a final correction adding
`PRIME` when negative.  Throwing `Error("Need at least 2 shares")` is modelled
by `Except.error`. -/
def reconstructSecret (shares : List Int) : Except String Int :=
  if shares.length < 2 then .error "Need at least 2 shares"
  else
    let secret : Int :=
      (List.range shares.length).foldl
        (fun secret i => (secret + shareTerm shares i).tmod PRIME) 0
    .ok (if secret < 0 then secret + PRIME else secret)

/-- The share record returned by the `MPCFramework` operations
(interface `SecureValue` in the source).  The `id`/`timestamp` metadata and
the hex serialization of the two shares are elided (see the header comment). -/
structure SecureValue where
  party1 : Int
  party2 : Int
  fieldName : String
  partyCount : Nat
  threshold : Nat
deriving DecidableEq, Repr

/-- JS `string | number` argument of `MPCFramework.encode`. -/
inductive PlainValue where
  | str (s : String)
  | num (n : Int)

/-- The secret field value derived by `MPCFramework.encode`: for a string,
the SHA-256 digest interpreted as a big-endian integer and reduced mod `PRIME`
(`BigInt('0x' + hash) % PRIME`); for a number, `BigInt(Math.floor(Number(v)))`,
which is the integer itself for integer arguments. -/
def secretValueOf (sha : String → Nat) : PlainValue → Int
  | .str s => ((sha s : Int)).tmod PRIME
  | .num n => n

/-- The source's `MPCFramework.encode`: derives the secret value, splits it
with `splitSecret(secret, 2, 2)` and wraps the two shares in a fresh record.
The `Except.error` branch is dead code: `splitSecret` with `k = n = 2` never
fails. -/
def encode (sha : String → Nat) (value : PlainValue) (fieldName : String)
    (rand : Nat → Nat) : SecureValue :=
  let secretValue := secretValueOf sha value
  match splitSecret secretValue 2 2 rand with
  | .ok shares => ⟨shares.getD 0 0, shares.getD 1 0, fieldName, 2, 2⟩
  | .error _ => ⟨0, 0, fieldName, 2, 2⟩

/-- The source's `MPCFramework.decode`: parses the two hex shares back into
bigints and runs `reconstructSecret` on them. -/
def decode (sv : SecureValue) : Except String Int :=
  reconstructSecret [sv.party1, sv.party2]

/-- The source's `MPCFramework.encodeBoolean`: encodes 1 for true, 0 for
false. -/
def encodeBoolean (sha : String → Nat) (value : Bool) (fieldName : String)
    (rand : Nat → Nat) : SecureValue :=
  encode sha (.num (if value then 1 else 0)) fieldName rand

/-- The source's `MPCFramework.secureEquality`: computes the per-party share
differences `(a_p - b_p + PRIME) % PRIME`, declares equality iff both are
zero, and re-encodes the resulting bit with `encodeBoolean` (which draws a
fresh random coefficient, modelled by `rand`). -/
def secureEquality (sha : String → Nat) (sv1 sv2 : SecureValue)
    (rand : Nat → Nat) : SecureValue :=
  let diff1 := (sv1.party1 - sv2.party1 + PRIME).tmod PRIME
  let diff2 := (sv1.party2 - sv2.party2 + PRIME).tmod PRIME
  let isEqual : Int := if diff1 = 0 ∧ diff2 = 0 then 1 else 0
  encodeBoolean sha (isEqual == 1) (sv1.fieldName ++ "_eq_" ++ sv2.fieldName) rand

/-- The source's `MPCFramework.secureAnd`: starts an accumulator at 1, decodes
every input record, keeps 1 only while every decoded value equals 1, and
re-encodes the final bit.  An exception escaping `decode` propagates, hence
the `Except` monad. -/
def secureAnd (sha : String → Nat) (booleanShares : List SecureValue)
    (rand : Nat → Nat) : Except String SecureValue := do
  let result ← booleanShares.foldlM
    (fun result share => do
      let value ← decode share
      pure (if result = 1 ∧ value = 1 then (1 : Int) else 0))
    (1 : Int)
  pure (encodeBoolean sha (result == 1) "combined_result" rand)

/-- The source's `MPCFramework.secureAggregate`: adds up both shares of every
input record into one plain (never reduced) bigint sum, then re-splits the
total as `sum1 = sum / 2` (bigint division truncates) and `sum2 = sum - sum1`. -/
def secureAggregate (secureValues : List SecureValue) : SecureValue :=
  let sum : Int := secureValues.foldl (fun sum sv => sum + sv.party1 + sv.party2) 0
  let sum1 := sum.tdiv 2
  let sum2 := sum - sum1
  ⟨sum1, sum2, "aggregated_sum", 2, 2⟩

/-- Modelled from the spec: "a ShareRecord is valid iff both `shareParty1` and
`shareParty2` lie in [0, P), and together they are consistent with some
degree-(threshold-1) polynomial whose constant term is the encoded secret"
(threshold 2, so a degree-1 polynomial `a0 + a1·x` evaluated at 1 and 2 over
the field, with constant term `a0` the value `decode` recovers). -/
def ShareRecordValid (sv : SecureValue) : Prop :=
  0 ≤ sv.party1 ∧ sv.party1 < PRIME ∧ 0 ≤ sv.party2 ∧ sv.party2 < PRIME ∧
  ∃ a0 a1 : Int, decode sv = .ok a0 ∧
    sv.party1 = (a0 + a1) % PRIME ∧ sv.party2 = (a0 + 2 * a1) % PRIME

end MPC

deriving instance DecidableEq for Except

namespace MPC
theorem PRIME_pos : (0 : Int) < PRIME := by decide

theorem tmodP_lt (a : Int) : a.tmod PRIME < PRIME := Int.tmod_lt_of_pos a (by decide)

theorem modInverse_one : modInverse 1 = 1 := by decide

theorem modInverse_Pm1 : modInverse (PRIME - 1) = PRIME - 1 := by decide

theorem lagrangeFactors_two_zero : lagrangeFactors 2 0 = (PRIME - 2, PRIME - 1) := by decide

theorem lagrangeFactors_two_one : lagrangeFactors 2 1 = (PRIME - 1, 1) := by decide

theorem lagScalar_zero : ((PRIME - 2) * modInverse (PRIME - 1)).tmod PRIME = 2 := by decide

theorem lagScalar_one : ((PRIME - 1) * modInverse 1).tmod PRIME = PRIME - 1 := by decide

theorem shareTerm_pair_zero (a b : Int) : shareTerm [a, b] 0 = (a * 2).tmod PRIME := by
  simp only [shareTerm, show ([a, b] : List Int).length = 2 from rfl, lagrangeFactors_two_zero,
    lagScalar_zero, List.getD]
  rfl

theorem shareTerm_pair_one (a b : Int) : shareTerm [a, b] 1 = (b * (PRIME - 1)).tmod PRIME := by
  simp only [shareTerm, show ([a, b] : List Int).length = 2 from rfl, lagrangeFactors_two_one,
    lagScalar_one, List.getD]
  rfl

theorem reconstructSecret_pair_raw (a b : Int) :
    reconstructSecret [a, b] = Except.ok
      (if ((0 + shareTerm [a, b] 0).tmod PRIME + shareTerm [a, b] 1).tmod PRIME < 0 then
        ((0 + shareTerm [a, b] 0).tmod PRIME + shareTerm [a, b] 1).tmod PRIME + PRIME
      else ((0 + shareTerm [a, b] 0).tmod PRIME + shareTerm [a, b] 1).tmod PRIME) := rfl

theorem reconstructSecret_pair (a b : Int) (ha : 0 ≤ a) (hb : 0 ≤ b) :
    reconstructSecret [a, b] =
      .ok (((a * 2).tmod PRIME + (b * (PRIME - 1)).tmod PRIME).tmod PRIME) := by
  have hterm0 : 0 ≤ (a * 2).tmod PRIME := Int.tmod_nonneg PRIME (by positivity)
  have hterm1 : 0 ≤ (b * (PRIME - 1)).tmod PRIME :=
    Int.tmod_nonneg PRIME (by nlinarith [PRIME_pos])
  have hsum : 0 ≤ ((a * 2).tmod PRIME + (b * (PRIME - 1)).tmod PRIME).tmod PRIME :=
    Int.tmod_nonneg PRIME (by omega)
  rw [reconstructSecret_pair_raw, shareTerm_pair_zero, shareTerm_pair_one, Int.zero_add,
    Int.tmod_eq_of_lt hterm0 (tmodP_lt _), if_neg (not_lt.mpr hsum)]

theorem PRIME_eq :
    PRIME = 57896044618658097711785492504343953926634992332820282019728792003956564819949 := rfl

theorem tmodP_eq_emod (a : Int) (ha : 0 ≤ a) : a.tmod PRIME = a % PRIME :=
  Int.tmod_eq_emod ha (by decide)

theorem emodP_nonneg (a : Int) : 0 ≤ a % PRIME := Int.emod_nonneg a (by decide)

theorem emodP_lt (a : Int) : a % PRIME < PRIME := Int.emod_lt_of_pos a (by decide)

theorem neg_lt_tmodP (a : Int) : -PRIME < a.tmod PRIME := by
  match a with
  | .ofNat m =>
      exact lt_of_lt_of_le (by decide : -PRIME < 0) (Int.tmod_nonneg PRIME (Int.ofNat_nonneg m))
  | .negSucc m =>
      have h : (Int.negSucc m).tmod PRIME = -(((m + 1 : Nat) % PRIME.toNat : Nat) : Int) := rfl
      rw [h]
      have hlt : (m + 1 : Nat) % PRIME.toNat < PRIME.toNat := Nat.mod_lt _ (by decide)
      omega

theorem reconstructSecret_pair_emod (a b : Int) (ha : 0 ≤ a) (hb : 0 ≤ b) :
    reconstructSecret [a, b] = .ok ((a * 2 % PRIME + b * (PRIME - 1) % PRIME) % PRIME) := by
  rw [reconstructSecret_pair a b ha hb]
  rw [tmodP_eq_emod (a * 2) (by positivity),
    tmodP_eq_emod (b * (PRIME - 1)) (by nlinarith [PRIME_pos])]
  rw [tmodP_eq_emod _ (by have := emodP_nonneg (a * 2); have := emodP_nonneg (b * (PRIME - 1)); omega)]

theorem splitSecret_pair_raw (s : Int) (rand : Nat → Nat) :
    splitSecret s 2 2 rand = .ok
      [((0 + (s * 1).tmod PRIME).tmod PRIME + (((rand 1 : Int).tmod PRIME) * 1).tmod PRIME).tmod PRIME,
       ((0 + (s * 1).tmod PRIME).tmod PRIME + (((rand 1 : Int).tmod PRIME) * 2).tmod PRIME).tmod PRIME] := rfl

theorem splitSecret_pair (s : Int) (h0 : 0 ≤ s) (h1 : s < PRIME) (rand : Nat → Nat) :
    splitSecret s 2 2 rand = .ok
      [(s + (rand 1 : Int) % PRIME) % PRIME,
       (s + ((rand 1 : Int) % PRIME * 2) % PRIME) % PRIME] := by
  have hrm0 : (0 : Int) ≤ (rand 1 : Int) % PRIME := emodP_nonneg _
  have hrm1 : (rand 1 : Int) % PRIME < PRIME := emodP_lt _
  have e1 : ((rand 1 : Int)).tmod PRIME = (rand 1 : Int) % PRIME :=
    tmodP_eq_emod _ (Int.ofNat_nonneg _)
  have e2 : (s).tmod PRIME = s := Int.tmod_eq_of_lt h0 h1
  have e3 : ((rand 1 : Int) % PRIME).tmod PRIME = (rand 1 : Int) % PRIME :=
    Int.tmod_eq_of_lt hrm0 hrm1
  have e4 : (s + (rand 1 : Int) % PRIME).tmod PRIME = (s + (rand 1 : Int) % PRIME) % PRIME :=
    tmodP_eq_emod _ (by omega)
  have e5 : ((rand 1 : Int) % PRIME * 2).tmod PRIME = ((rand 1 : Int) % PRIME * 2) % PRIME :=
    tmodP_eq_emod _ (by positivity)
  have e6 : (s + ((rand 1 : Int) % PRIME * 2) % PRIME).tmod PRIME
      = (s + ((rand 1 : Int) % PRIME * 2) % PRIME) % PRIME :=
    tmodP_eq_emod _ (by have := emodP_nonneg ((rand 1 : Int) % PRIME * 2); omega)
  simp only [splitSecret_pair_raw, Int.mul_one, Int.zero_add, e1, e2, e3, e4, e5, e6]

theorem encode_eq (sha : String → Nat) (v : PlainValue) (f : String) (rand : Nat → Nat)
    (h0 : 0 ≤ secretValueOf sha v) (h1 : secretValueOf sha v < PRIME) :
    encode sha v f rand =
      ⟨(secretValueOf sha v + (rand 1 : Int) % PRIME) % PRIME,
       (secretValueOf sha v + ((rand 1 : Int) % PRIME * 2) % PRIME) % PRIME, f, 2, 2⟩ := by
  simp only [encode, splitSecret_pair _ h0 h1 rand, List.getD]
  rfl

theorem decode_encode (sha : String → Nat) (v : PlainValue) (f : String) (rand : Nat → Nat)
    (h0 : 0 ≤ secretValueOf sha v) (h1 : secretValueOf sha v < PRIME) :
    decode (encode sha v f rand) = .ok (secretValueOf sha v) := by
  rw [encode_eq sha v f rand h0 h1]
  show reconstructSecret _ = _
  rw [reconstructSecret_pair_emod _ _ (emodP_nonneg _) (emodP_nonneg _)]
  congr 1
  have hrm0 : (0 : Int) ≤ (rand 1 : Int) % PRIME := emodP_nonneg _
  have hrm1 : (rand 1 : Int) % PRIME < PRIME := emodP_lt _
  generalize (rand 1 : Int) % PRIME = r at hrm0 hrm1
  generalize secretValueOf sha v = s at h0 h1
  rw [PRIME_eq] at h1 hrm1 ⊢
  omega

end MPC
namespace MPC

theorem secretValueOf_str_nonneg (sha : String → Nat) (s : String) :
    0 ≤ secretValueOf sha (.str s) := by
  show 0 ≤ ((sha s : Int)).tmod PRIME
  exact Int.tmod_nonneg PRIME (Int.natCast_nonneg _)

theorem secretValueOf_str_lt (sha : String → Nat) (s : String) :
    secretValueOf sha (.str s) < PRIME := by
  show ((sha s : Int)).tmod PRIME < PRIME
  exact tmodP_lt _

theorem secretValueOf_str_eq (sha : String → Nat) (s : String) :
    secretValueOf sha (.str s) = (sha s : Int) % PRIME := by
  show ((sha s : Int)).tmod PRIME = _
  exact tmodP_eq_emod _ (Int.natCast_nonneg _)

theorem decode_encodeBoolean (sha : String → Nat) (b : Bool) (f : String) (rand : Nat → Nat) :
    decode (encodeBoolean sha b f rand) = .ok (if b then 1 else 0) := by
  cases b
  · exact decode_encode sha (.num 0) f rand (by decide : (0 : Int) ≤ 0) (by decide : (0 : Int) < PRIME)
  · exact decode_encode sha (.num 1) f rand (by decide : (0 : Int) ≤ 1) (by decide : (1 : Int) < PRIME)

/-- C1: for every secret `s` in `[0, PRIME)` and every value of the randomly
drawn degree-1 coefficient, reconstructing the two shares produced by
`splitSecret s 2 2` (evaluations of the polynomial at x = 1 and x = 2)
returns exactly `s`. -/
theorem claim1_split_reconstruct_roundtrip (s : Int) (rand : Nat → Nat)
    (h0 : 0 ≤ s) (h1 : s < PRIME) :
    (splitSecret s 2 2 rand).bind reconstructSecret = .ok s := by
  rw [splitSecret_pair s h0 h1 rand]
  show reconstructSecret _ = _
  rw [reconstructSecret_pair_emod _ _ (emodP_nonneg _) (emodP_nonneg _)]
  congr 1
  have hrm0 : (0 : Int) ≤ (rand 1 : Int) % PRIME := emodP_nonneg _
  have hrm1 : (rand 1 : Int) % PRIME < PRIME := emodP_lt _
  generalize (rand 1 : Int) % PRIME = r at hrm0 hrm1
  rw [PRIME_eq] at h1 hrm1 ⊢
  omega

/-- C1 witness: the round trip at secret 5 with coefficient draw 3. -/
theorem claim1_witness :
    (0 : Int) ≤ 5 ∧ (5 : Int) < PRIME ∧
      (splitSecret 5 2 2 (fun _ => 3)).bind reconstructSecret = .ok 5 :=
  ⟨by decide, by decide,
    claim1_split_reconstruct_roundtrip 5 (fun _ => 3) (by decide) (by decide)⟩

/-- C4 counterexample: the modulus in the source is not the secp256k1 field
prime `2^256 - 2^32 - 977` the spec names. -/
theorem claim4_counterexample : PRIME ≠ 2 ^ 256 - 2 ^ 32 - 977 := by
  rw [PRIME_eq]
  norm_num

/-- C4 amended: the modulus the module actually uses everywhere is
`2^255 - 19`, the Curve25519 field prime (despite the source comment calling
it the secp256k1 prime). -/
theorem claim4_prime_is_curve25519 : PRIME = 2 ^ 255 - 19 := by
  rw [PRIME_eq]
  norm_num

set_option maxRecDepth 100000 in
/-- C5 counterexample: the numeric round trip fails on negative inputs inside
the claimed range `|n| < PRIME`: encoding `-1` with coefficient draw 1 decodes
to `PRIME - 1`, not `-1`. -/
theorem claim5_counterexample :
    decode (encode (fun _ => 0) (.num (-1)) "f" (fun _ => 1)) = .ok (PRIME - 1) ∧
      (PRIME - 1 : Int) ≠ -1 := by
  constructor
  · decide
  · decide

/-- C5 amended: for every integer `n` with `0 ≤ n < PRIME` and every value of
the random share coefficient, `decode (encode n)` returns exactly `n`. -/
theorem claim5_roundtrip_nonneg (sha : String → Nat) (n : Int) (f : String)
    (rand : Nat → Nat) (h0 : 0 ≤ n) (h1 : n < PRIME) :
    decode (encode sha (.num n) f rand) = .ok n :=
  decode_encode sha (.num n) f rand h0 h1

/-- C5 witness: the round trip at 42 with coefficient draw 7. -/
theorem claim5_witness :
    (0 : Int) ≤ 42 ∧ (42 : Int) < PRIME ∧
      decode (encode (fun _ => 0) (.num 42) "f" (fun _ => 7)) = .ok 42 :=
  ⟨by decide, by decide,
    claim5_roundtrip_nonneg (fun _ => 0) 42 "f" (fun _ => 7) (by decide) (by decide)⟩

/-- C6: for every digest function, every string and every pair of coefficient
draws, an encoded string decodes to the digest value reduced mod `PRIME`, and
two independent encode calls decode to the same integer (the string-to-field
mapping is deterministic). -/
theorem claim6_string_digest_roundtrip (sha : String → Nat) (s : String)
    (f1 f2 : String) (r1 r2 : Nat → Nat) :
    decode (encode sha (.str s) f1 r1) = .ok ((sha s : Int) % PRIME) ∧
      decode (encode sha (.str s) f2 r2) = decode (encode sha (.str s) f1 r1) := by
  have key := decode_encode sha (.str s) f1 r1 (secretValueOf_str_nonneg sha s)
    (secretValueOf_str_lt sha s)
  constructor
  · rw [key, secretValueOf_str_eq sha s]
  · rw [decode_encode sha (.str s) f2 r2 (secretValueOf_str_nonneg sha s)
      (secretValueOf_str_lt sha s), key]

/-- C7 amended: on an empty input list `secureAnd` leaves the accumulator at
its initial value 1 and returns the encoding of true, which decodes to 1; no
error is raised. -/
theorem claim7_empty_and (sha : String → Nat) (rand : Nat → Nat) :
    secureAnd sha [] rand = .ok (encodeBoolean sha true "combined_result" rand) ∧
      decode (encodeBoolean sha true "combined_result" rand) = .ok 1 := by
  constructor
  · rfl
  · exact decode_encode sha (.num 1) "combined_result" rand (by decide : (0 : Int) ≤ 1)
      (by decide : (1 : Int) < PRIME)

end MPC
namespace MPC

theorem eq_shares_iff (x y r1 r2 : Int)
    (hx0 : 0 ≤ x) (hx1 : x < PRIME) (hy0 : 0 ≤ y) (hy1 : y < PRIME)
    (hr10 : 0 ≤ r1) (hr11 : r1 < PRIME) (hr20 : 0 ≤ r2) (hr21 : r2 < PRIME) :
    (((x + r1) % PRIME - (y + r2) % PRIME + PRIME).tmod PRIME = 0 ∧
       ((x + (r1 * 2) % PRIME) % PRIME - (y + (r2 * 2) % PRIME) % PRIME + PRIME).tmod PRIME = 0)
      ↔ (x = y ∧ r1 = r2) := by
  rw [tmodP_eq_emod _ (by have := emodP_nonneg (x + r1); have := emodP_lt (y + r2); omega)]
  rw [tmodP_eq_emod _ (by
    have := emodP_nonneg (x + (r1 * 2) % PRIME)
    have := emodP_lt (y + (r2 * 2) % PRIME)
    omega)]
  rw [PRIME_eq] at hx1 hy1 hr11 hr21 ⊢
  omega

/-- C2 amended: for all field elements x and y, the record returned by
`secureEquality (encode x) (encode y)` decodes to 1 exactly when x = y and
both encode calls drew the same random coefficient; in particular it decodes
to 0 whenever x differs from y (the protocol compares shares, not secrets). -/
theorem claim2_equality_characterization (sha : String → Nat) (x y : Int)
    (f1 f2 : String) (r1 r2 rOut : Nat → Nat)
    (hx0 : 0 ≤ x) (hx1 : x < PRIME) (hy0 : 0 ≤ y) (hy1 : y < PRIME) :
    decode (secureEquality sha (encode sha (.num x) f1 r1) (encode sha (.num y) f2 r2) rOut)
      = .ok (if x = y ∧ (r1 1 : Int) % PRIME = (r2 1 : Int) % PRIME then 1 else 0) := by
  rw [encode_eq sha (.num x) f1 r1 hx0 hx1, encode_eq sha (.num y) f2 r2 hy0 hy1]
  show decode (encodeBoolean sha _ _ rOut) = _
  rw [decode_encodeBoolean]
  dsimp only [secretValueOf]
  have hiff := eq_shares_iff x y ((r1 1 : Int) % PRIME) ((r2 1 : Int) % PRIME)
    hx0 hx1 hy0 hy1 (emodP_nonneg _) (emodP_lt _) (emodP_nonneg _) (emodP_lt _)
  by_cases hc : x = y ∧ (r1 1 : Int) % PRIME = (r2 1 : Int) % PRIME
  · rw [if_pos hc, if_pos (hiff.mpr hc), if_pos]
    rfl
  · rw [if_neg hc, if_neg (fun hd => hc (hiff.mp hd)), if_neg]
    decide

/-- C2 witness: equal secrets with identical coefficient draws decode to 1. -/
theorem claim2_witness :
    decode (secureEquality (fun _ => 0) (encode (fun _ => 0) (.num 3) "a" (fun _ => 5))
        (encode (fun _ => 0) (.num 3) "b" (fun _ => 5)) (fun _ => 0)) = .ok 1 := by
  rw [claim2_equality_characterization (fun _ => 0) 3 3 "a" "b" (fun _ => 5) (fun _ => 5)
    (fun _ => 0) (by decide) (by decide) (by decide) (by decide)]
  decide

end MPC
namespace MPC

theorem aggregate_foldl_sum :
    ∀ (svs : List SecureValue) (init : Int),
      svs.foldl (fun (sum : Int) (sv : SecureValue) => sum + sv.party1 + sv.party2) init
        = init + (svs.map (fun (sv : SecureValue) => sv.party1 + sv.party2)).sum := by
  intro svs
  induction svs with
  | nil => intro init; simp
  | cons a t ih =>
      intro init
      rw [List.foldl_cons, ih, List.map_cons, List.sum_cons]
      ring

/-- C3 amended: the aggregate of encode(3) and encode(4) decodes to 7 when
both encode calls draw a zero random coefficient, but not for every draw
(coefficients 2 and 0 make it decode to 10); per-party accumulation is a plain
big-integer sum with no modular reduction, and the total is re-split as
`sum1 = total / 2` (truncating division) and `sum2 = total - sum1`. -/
theorem claim3_aggregate_amended :
    (∀ (sha : String → Nat) (r1 r2 : Nat → Nat),
        (r1 1 : Int) % PRIME = 0 → (r2 1 : Int) % PRIME = 0 →
        decode (secureAggregate [encode sha (.num 3) "a" r1, encode sha (.num 4) "a" r2])
          = .ok 7) ∧
      (∀ svs : List SecureValue,
        (secureAggregate svs).party1
            = ((svs.map (fun (sv : SecureValue) => sv.party1 + sv.party2)).sum).tdiv 2 ∧
          (secureAggregate svs).party2
            = (svs.map (fun (sv : SecureValue) => sv.party1 + sv.party2)).sum
                - ((svs.map (fun (sv : SecureValue) => sv.party1 + sv.party2)).sum).tdiv 2) := by
  constructor
  · intro sha r1 r2 h1 h2
    rw [encode_eq sha (.num 3) "a" r1 (by decide : (0 : Int) ≤ 3) (by decide : (3 : Int) < PRIME),
      encode_eq sha (.num 4) "a" r2 (by decide : (0 : Int) ≤ 4) (by decide : (4 : Int) < PRIME)]
    dsimp only [secretValueOf]
    rw [h1, h2]
    decide
  · intro svs
    constructor
    · show (svs.foldl (fun (sum : Int) (sv : SecureValue) => sum + sv.party1 + sv.party2) 0).tdiv 2 = _
      rw [aggregate_foldl_sum svs 0, Int.zero_add]
    · show svs.foldl (fun (sum : Int) (sv : SecureValue) => sum + sv.party1 + sv.party2) 0
          - (svs.foldl (fun (sum : Int) (sv : SecureValue) => sum + sv.party1 + sv.party2) 0).tdiv 2 = _
      rw [aggregate_foldl_sum svs 0, Int.zero_add]

set_option maxRecDepth 100000 in
/-- C3 counterexample: with coefficient draws 2 and 0 the aggregate of
encode(3) and encode(4) decodes to 10, not 7. -/
theorem claim3_counterexample :
    decode (secureAggregate [encode (fun _ => 0) (.num 3) "a" (fun _ => 2),
        encode (fun _ => 0) (.num 4) "a" (fun _ => 0)]) = .ok 10 ∧ (10 : Int) ≠ 7 := by
  constructor
  · decide
  · decide

/-- C3 witness: both conjuncts of the amended claim at concrete inputs. -/
theorem claim3_witness :
    decode (secureAggregate [encode (fun _ => 0) (.num 3) "a" (fun _ => 0),
        encode (fun _ => 0) (.num 4) "a" (fun _ => 0)]) = .ok 7 ∧
      (secureAggregate [(⟨1, 2, "x", 2, 2⟩ : SecureValue)]).party1
        = (([(⟨1, 2, "x", 2, 2⟩ : SecureValue)].map (fun (sv : SecureValue) => sv.party1 + sv.party2)).sum).tdiv 2 :=
  ⟨claim3_aggregate_amended.1 (fun _ => 0) (fun _ => 0) (fun _ => 0)
      (by decide) (by decide),
    (claim3_aggregate_amended.2 [(⟨1, 2, "x", 2, 2⟩ : SecureValue)]).1⟩

end MPC
namespace MPC

theorem reconstruct_fold_bound (shares : List Int) :
    ∀ (l : List Nat) (init : Int), l ≠ [] →
      -PRIME < l.foldl (fun secret i => (secret + shareTerm shares i).tmod PRIME) init ∧
        l.foldl (fun secret i => (secret + shareTerm shares i).tmod PRIME) init < PRIME := by
  intro l
  induction l with
  | nil => exact fun init h => absurd rfl h
  | cons a t ih =>
      intro init _
      rw [List.foldl_cons]
      cases t with
      | nil =>
          rw [List.foldl_nil]
          exact ⟨neg_lt_tmodP _, tmodP_lt _⟩
      | cons b t2 => exact ih _ (by simp)

/-- C8: `splitSecret` fails with the threshold error exactly when k > n and
otherwise returns n shares; `reconstructSecret` fails with the
insufficient-shares error exactly when fewer than 2 shares are supplied and
otherwise returns a field element in [0, PRIME). -/
theorem claim8_error_contract :
    (∀ (s : Int) (n k : Nat) (rand : Nat → Nat), k > n →
        splitSecret s n k rand = .error "Threshold k must be <= n") ∧
      (∀ (s : Int) (n k : Nat) (rand : Nat → Nat), k ≤ n →
        (splitSecret s n k rand).map List.length = .ok n) ∧
      (∀ shares : List Int, shares.length < 2 →
        reconstructSecret shares = .error "Need at least 2 shares") ∧
      (∀ shares : List Int, 2 ≤ shares.length →
        (reconstructSecret shares).map (fun v => decide (0 ≤ v ∧ v < PRIME)) = .ok true) := by
  refine ⟨?_, ?_, ?_, ?_⟩
  · intro s n k rand h
    rw [splitSecret, if_pos h]
  · intro s n k rand h
    rw [splitSecret, if_neg (by omega)]
    show Except.ok (List.length _) = _
    rw [List.length_map, List.length_range]
  · intro shares h
    rw [reconstructSecret, if_pos h]
  · intro shares h
    rw [reconstructSecret, if_neg (by omega)]
    have hb := reconstruct_fold_bound shares (List.range shares.length) 0
      (fun hnil => by rw [List.range_eq_nil] at hnil; omega)
    have hP := PRIME_pos
    simp only [Except.map]
    congr 1
    rw [decide_eq_true_eq]
    constructor
    · split
      · omega
      · omega
    · split
      · omega
      · omega

/-- C8 witness: each conjunct of the error contract at a concrete input. -/
theorem claim8_witness :
    splitSecret 0 2 3 (fun _ => 0) = .error "Threshold k must be <= n" ∧
      (splitSecret 7 3 2 (fun _ => 4)).map List.length = .ok 3 ∧
      reconstructSecret [5] = .error "Need at least 2 shares" ∧
      (reconstructSecret [1, 2]).map (fun v => decide (0 ≤ v ∧ v < PRIME)) = .ok true :=
  ⟨claim8_error_contract.1 0 2 3 (fun _ => 0) (by omega),
    claim8_error_contract.2.1 7 3 2 (fun _ => 4) (by omega),
    claim8_error_contract.2.2.1 [5] (by decide),
    claim8_error_contract.2.2.2 [1, 2] (by decide)⟩

end MPC
namespace MPC

theorem reconstruct_two_ok (a b : Int) : ∃ v, reconstructSecret [a, b] = .ok v := ⟨_, rfl⟩

theorem decode_two_ok (sv : SecureValue) : ∃ v, decode sv = .ok v :=
  reconstruct_two_ok sv.party1 sv.party2

theorem secureAnd_fold_ok :
    ∀ (l : List SecureValue) (acc : Int),
      ∃ r : Int,
        (l.foldlM (fun result share => do
            let value ← decode share
            pure (if result = 1 ∧ value = 1 then (1 : Int) else 0)) acc
          : Except String Int) = .ok r := by
  intro l
  induction l with
  | nil => exact fun acc => ⟨acc, rfl⟩
  | cons a t ih =>
      intro acc
      obtain ⟨v, hv⟩ := decode_two_ok a
      obtain ⟨r, hr⟩ := ih (if acc = 1 ∧ v = 1 then (1 : Int) else 0)
      exact ⟨r, by rw [List.foldlM_cons, hv]; exact hr⟩

theorem secureAnd_returns (sha : String → Nat) (svs : List SecureValue) (rand : Nat → Nat) :
    ∃ r : Int,
      secureAnd sha svs rand = .ok (encodeBoolean sha (r == 1) "combined_result" rand) := by
  obtain ⟨r, hr⟩ := secureAnd_fold_ok svs 1
  exact ⟨r, by simp only [secureAnd]; rw [hr]; rfl⟩

theorem emod_two_swap (s r : Int) : (s + (r * 2) % PRIME) % PRIME = (s + 2 * r) % PRIME := by
  rw [PRIME_eq]
  omega

theorem encode_valid (sha : String → Nat) (v : PlainValue) (f : String) (rand : Nat → Nat)
    (h0 : 0 ≤ secretValueOf sha v) (h1 : secretValueOf sha v < PRIME) :
    ShareRecordValid (encode sha v f rand) := by
  have hdec := decode_encode sha v f rand h0 h1
  rw [encode_eq sha v f rand h0 h1] at hdec ⊢
  refine ⟨emodP_nonneg _, emodP_lt _, emodP_nonneg _, emodP_lt _,
    secretValueOf sha v, (rand 1 : Int) % PRIME, hdec, rfl, ?_⟩
  exact emod_two_swap _ _

theorem encodeBoolean_valid (sha : String → Nat) (b : Bool) (f : String) (rand : Nat → Nat) :
    ShareRecordValid (encodeBoolean sha b f rand) := by
  cases b
  · exact encode_valid sha (.num 0) f rand (by decide : (0 : Int) ≤ 0) (by decide : (0 : Int) < PRIME)
  · exact encode_valid sha (.num 1) f rand (by decide : (0 : Int) ≤ 1) (by decide : (1 : Int) < PRIME)

/-- C9 amended: every record returned by `encode` (on a string, or a number in
[0, PRIME)), by `secureEquality` and by `secureAnd` satisfies the spec's
ShareRecord invariant; `secureAggregate` does not preserve it (see the
counterexample: on valid inputs it can emit a share at least PRIME). -/
theorem claim9_validity :
    (∀ (sha : String → Nat) (s : String) (f : String) (rand : Nat → Nat),
        ShareRecordValid (encode sha (.str s) f rand)) ∧
      (∀ (sha : String → Nat) (n : Int) (f : String) (rand : Nat → Nat),
        0 ≤ n → n < PRIME → ShareRecordValid (encode sha (.num n) f rand)) ∧
      (∀ (sha : String → Nat) (sv1 sv2 : SecureValue) (rand : Nat → Nat),
        ShareRecordValid (secureEquality sha sv1 sv2 rand)) ∧
      (∀ (sha : String → Nat) (svs : List SecureValue) (rand : Nat → Nat) (out : SecureValue),
        secureAnd sha svs rand = .ok out → ShareRecordValid out) := by
  refine ⟨?_, ?_, ?_, ?_⟩
  · intro sha s f rand
    exact encode_valid sha (.str s) f rand (secretValueOf_str_nonneg sha s)
      (secretValueOf_str_lt sha s)
  · intro sha n f rand h0 h1
    exact encode_valid sha (.num n) f rand h0 h1
  · intro sha sv1 sv2 rand
    simp only [secureEquality]
    exact encodeBoolean_valid sha _ _ rand
  · intro sha svs rand out h
    obtain ⟨r, hr⟩ := secureAnd_returns sha svs rand
    rw [h] at hr
    rw [Except.ok.inj hr]
    exact encodeBoolean_valid sha _ _ rand

set_option maxRecDepth 1000000 in
/-- C9 counterexample: aggregating two valid records produced by `encode 0`
with coefficient draw PRIME - 1 yields a record whose first share is
2 * PRIME - 3, outside [0, PRIME), so the result violates the invariant. -/
theorem claim9_counterexample :
    ¬ ShareRecordValid (secureAggregate
        [encode (fun _ => 0) (.num 0) "a" (fun _ => PRIME.toNat - 1),
         encode (fun _ => 0) (.num 0) "a" (fun _ => PRIME.toNat - 1)]) :=
  fun h => absurd h.2.1 (by decide)

/-- C9 witness: the invariant for a concrete string encode and a concrete
numeric encode. -/
theorem claim9_witness :
    ShareRecordValid (encode (fun _ => 7) (.str "id") "f" (fun _ => 3)) ∧
      ShareRecordValid (encode (fun _ => 7) (.num 5) "g" (fun _ => 4)) :=
  ⟨claim9_validity.1 (fun _ => 7) "id" "f" (fun _ => 3),
    claim9_validity.2.1 (fun _ => 7) 5 "g" (fun _ => 4) (by decide) (by decide)⟩

/-- C10: every record returned by `secureEquality`, and every record
`secureAnd` returns on any input list (empty included), decodes to 0 or 1. -/
theorem claim10_boolean_outputs :
    (∀ (sha : String → Nat) (sv1 sv2 : SecureValue) (rand : Nat → Nat),
        decode (secureEquality sha sv1 sv2 rand) = .ok 0 ∨
          decode (secureEquality sha sv1 sv2 rand) = .ok 1) ∧
      (∀ (sha : String → Nat) (svs : List SecureValue) (rand : Nat → Nat) (out : SecureValue),
        secureAnd sha svs rand = .ok out →
          (decode out = .ok 0 ∨ decode out = .ok 1)) := by
  have hbool : ∀ (sha : String → Nat) (b : Bool) (f : String) (rand : Nat → Nat),
      decode (encodeBoolean sha b f rand) = .ok 0 ∨
        decode (encodeBoolean sha b f rand) = .ok 1 := by
    intro sha b f rand
    rw [decode_encodeBoolean]
    cases b
    · exact Or.inl rfl
    · exact Or.inr rfl
  constructor
  · intro sha sv1 sv2 rand
    simp only [secureEquality]
    exact hbool sha _ _ rand
  · intro sha svs rand out h
    obtain ⟨r, hr⟩ := secureAnd_returns sha svs rand
    rw [h] at hr
    rw [Except.ok.inj hr]
    exact hbool sha _ _ rand

/-- C10 witness: the record returned by `secureAnd` on the empty list decodes
to 0 or 1. -/
theorem claim10_witness :
    decode (encodeBoolean (fun _ => 0) true "combined_result" (fun _ => 0)) = .ok 0 ∨
      decode (encodeBoolean (fun _ => 0) true "combined_result" (fun _ => 0)) = .ok 1 :=
  claim10_boolean_outputs.2 (fun _ => 0) [] (fun _ => 0) _ rfl

end MPC

namespace MPC

set_option maxRecDepth 1000000 in
/-- C2 counterexample: two encodings of the same secret 0 with different
coefficient draws (0 and 1) make `secureEquality` decode to 0, not 1, because
the protocol compares the shares rather than the secrets. -/
theorem claim2_counterexample :
    decode (secureEquality (fun _ => 0) (encode (fun _ => 0) (.num 0) "f" (fun _ => 0))
        (encode (fun _ => 0) (.num 0) "f" (fun _ => 1)) (fun _ => 0)) = .ok 0 ∧
      decode (secureEquality (fun _ => 0) (encode (fun _ => 0) (.num 0) "f" (fun _ => 0))
        (encode (fun _ => 0) (.num 0) "f" (fun _ => 1)) (fun _ => 0)) ≠ .ok 1 := by
  constructor
  · decide
  · decide

set_option maxRecDepth 1000000 in
/-- C7 counterexample: `secureAnd` on the empty list does not fail with an
error; it returns a fresh share record (the encoding of true), which decodes
to 1. -/
theorem claim7_counterexample :
    secureAnd (fun _ => 0) [] (fun _ => 0)
        = .ok (encodeBoolean (fun _ => 0) true "combined_result" (fun _ => 0)) ∧
      decode (encodeBoolean (fun _ => 0) true "combined_result" (fun _ => 0)) = .ok 1 := by
  constructor
  · rfl
  · decide

end MPC
